import Mathlib

/-
Verification of the OS-Fingerprinting CLI (src/os_fingerprint_cli.py).

The development shallowly embeds the core of the program:
  * `classify` / `parse_os_fingerprint`  — the fingerprint classifier
    (source function `parse_os_fingerprint`, lines 185-202);
  * `resolve_host`                        — the target resolver (lines 99-103),
    with the external `socket.gethostbyname` call given as an oracle;
  * `interactive_target_selection`        — the target-entry loop (lines 105-117),
    with the stream of operator inputs given as a list;
  * `run_nmap_scan`                       — the scan runner (lines 159-181),
    with each child-process invocation's outcome given by an oracle
    indexed by invocation number;
  * `mainModel`                           — the orchestrator `main` (lines 241-273).

Machine-level and I/O concerns (console rendering, the config file, the
optional 3D plot) do not affect the claims and are not modelled.
-/

set_option autoImplicit false

namespace OSFP

/-! ## Classification kinds

The source's `parse_os_fingerprint` returns one of seven rich-markup strings.
`Classification` names the seven branches; `render` maps each branch to the
exact string the source returns, so `parse_os_fingerprint = render ∘ classify`
is a literal transcription of the source function. -/

inductive Classification where
  | ExactMatch (detail : String)
  | GuessedMatch (detail : String)
  | NoExactMatch
  | TooManyMatches
  | InconclusiveDetection
  | Unparseable
  | Empty
deriving DecidableEq

/-! ## The regex model

The source uses `re.findall(r"OS details: (.+)", out)` and
`re.findall(r"Running: (.+)", out)`, and then only tests the result for
emptiness and reads index 0.  The pattern is a literal followed by a greedy
`(.+)` (`.` excludes newline), so a match at a position is: the literal occurs
there, followed by at least one non-newline character, and the capture is the
maximal run of non-newline characters after the literal.  `firstCapture`
scans left to right and returns the first such capture, which is exactly
`findall(...)[0]`, and returns `none` exactly when `findall` is empty. -/

def lineCapture (cs : List Char) : List Char :=
  cs.takeWhile (fun c => c != '\n')

def firstCapture (pat : List Char) : List Char → Option (List Char)
  | [] => none
  | c :: rest =>
    if pat.isPrefixOf (c :: rest) ∧ lineCapture ((c :: rest).drop pat.length) ≠ [] then
      some (lineCapture ((c :: rest).drop pat.length))
    else firstCapture pat rest

/-- Model of Python's substring test `pat in s`. -/
def containsSub (pat : List Char) : List Char → Bool
  | [] => pat.isEmpty
  | c :: rest => pat.isPrefixOf (c :: rest) || containsSub pat rest

def osDetailsPat : List Char := "OS details: ".data

def runningPat : List Char := "Running: ".data

def noExactPat : List Char := "No exact OS matches".data

def tooManyPat : List Char := "Too many fingerprints match".data

def osDetectPat : List Char := "OS detection performed".data

/-- The fingerprint classifier, transcribed branch for branch from
`parse_os_fingerprint` (source lines 185-202).  `if not nmap_output` is the
empty-string test; the two `re.findall` calls are `firstCapture`; the three
`in` tests are `containsSub`, in the source's `elif` order. -/
def classify (nmap_output : String) : Classification :=
  if nmap_output.data = [] then .Empty
  else
    match firstCapture osDetailsPat nmap_output.data with
    | some d => .ExactMatch (String.mk d)
    | none =>
      match firstCapture runningPat nmap_output.data with
      | some d => .GuessedMatch (String.mk d)
      | none =>
        if containsSub noExactPat nmap_output.data then .NoExactMatch
        else if containsSub tooManyPat nmap_output.data then .TooManyMatches
        else if containsSub osDetectPat nmap_output.data then .InconclusiveDetection
        else .Unparseable

/-- The exact strings the source function returns in each branch. -/
def render : Classification → String
  | .ExactMatch d => "[os]" ++ d ++ "[/os]"
  | .GuessedMatch d => "[os]" ++ d ++ "[/os]"
  | .NoExactMatch => "[warning]No exact OS match found[/warning]"
  | .TooManyMatches => "[warning]Too many fingerprints matched[/warning]"
  | .InconclusiveDetection => "[warning]OS detection performed, but inconclusive[/warning]"
  | .Unparseable => "[danger]Could not parse OS fingerprint[/danger]"
  | .Empty => "[danger]No output received[/danger]"

/-- The source function itself: classification rendered to its return string. -/
def parse_os_fingerprint (nmap_output : String) : String :=
  render (classify nmap_output)

def isGuessedMatch : Classification → Bool
  | .GuessedMatch _ => true
  | _ => false

/-! ## Helper lemmas about the regex model -/

lemma isPrefixOf_append_self (p t : List Char) : p.isPrefixOf (p ++ t) = true := by
  induction p with
  | nil => simp [List.isPrefixOf]
  | cons a as ih => simp [List.isPrefixOf, ih]

lemma append_of_isPrefixOf : ∀ {p s : List Char}, p.isPrefixOf s = true →
    s = p ++ s.drop p.length := by
  intro p
  induction p with
  | nil => intro s _; simp
  | cons a as ih =>
    intro s h
    cases s with
    | nil => simp [List.isPrefixOf] at h
    | cons b bs =>
      simp only [List.isPrefixOf, Bool.and_eq_true, beq_iff_eq] at h
      obtain ⟨hab, hpre⟩ := h
      subst hab
      simpa using ih hpre

lemma lineCapture_cons_ne {c : Char} (h : c ≠ '\n') (b : List Char) :
    lineCapture (c :: b) = c :: lineCapture b := by
  simp [lineCapture, List.takeWhile_cons, h]

lemma lineCapture_cons_newline (b : List Char) : lineCapture ('\n' :: b) = [] := by
  simp [lineCapture, List.takeWhile_cons]

lemma mem_lineCapture : ∀ {cs : List Char} {x : Char}, x ∈ lineCapture cs → x ≠ '\n' := by
  intro cs
  induction cs with
  | nil => intro x h; simp [lineCapture] at h
  | cons c b ih =>
    intro x h
    by_cases hc : c = '\n'
    · subst hc; rw [lineCapture_cons_newline] at h; simp at h
    · rw [lineCapture_cons_ne hc] at h
      rcases List.mem_cons.mp h with h1 | h2
      · subst h1; exact hc
      · exact ih h2

lemma exists_of_lineCapture_ne_nil {t : List Char} (h : lineCapture t ≠ []) :
    ∃ c b, t = c :: b ∧ c ≠ '\n' ∧ lineCapture t = c :: lineCapture b := by
  cases t with
  | nil => simp [lineCapture] at h
  | cons c b =>
    by_cases hc : c = '\n'
    · subst hc; rw [lineCapture_cons_newline] at h; simp at h
    · exact ⟨c, b, rfl, hc, lineCapture_cons_ne hc b⟩

lemma firstCapture_some_decomp (pat : List Char) : ∀ (s : List Char) (d : List Char),
    firstCapture pat s = some d →
    ∃ a c b, s = a ++ pat ++ c :: b ∧ c ≠ '\n' ∧ d = lineCapture (c :: b) := by
  intro s
  induction s with
  | nil => intro d h; simp [firstCapture] at h
  | cons c rest ih =>
    intro d h
    rw [firstCapture] at h
    split_ifs at h with hcond
    · obtain ⟨hpre, hcap⟩ := hcond
      obtain ⟨c0, b0, ht, hc0, hlc⟩ := exists_of_lineCapture_ne_nil hcap
      refine ⟨[], c0, b0, ?_, hc0, ?_⟩
      · have he := append_of_isPrefixOf hpre
        rw [ht] at he
        simpa using he
      · have hd : d = lineCapture ((c :: rest).drop pat.length) := by
          exact (Option.some.injEq _ _).mp h.symm
        rw [hd, ht]
    · obtain ⟨a, c0, b0, heq, hc0, hd⟩ := ih d h
      exact ⟨c :: a, c0, b0, by rw [heq]; simp, hc0, hd⟩

lemma firstCapture_some_of_decomp (pat : List Char) :
    ∀ (a : List Char) (c : Char) (b : List Char), c ≠ '\n' →
    ∃ d, firstCapture pat (a ++ pat ++ c :: b) = some d := by
  intro a
  induction a with
  | nil =>
    intro c b hc
    cases pat with
    | nil =>
      refine ⟨lineCapture (c :: b), ?_⟩
      have hs : ([] : List Char) ++ ([] : List Char) ++ c :: b = c :: b := by simp
      rw [hs, firstCapture]
      split_ifs with hcond
      · simp
      · exact absurd ⟨by simp [List.isPrefixOf], by simp [lineCapture_cons_ne hc]⟩ hcond
    | cons p ps =>
      refine ⟨lineCapture (c :: b), ?_⟩
      have hs : ([] : List Char) ++ (p :: ps) ++ c :: b = p :: (ps ++ c :: b) := by simp
      rw [hs, firstCapture]
      have hpre : (p :: ps).isPrefixOf (p :: (ps ++ c :: b)) = true := by
        have h1 := isPrefixOf_append_self (p :: ps) (c :: b)
        rw [List.cons_append] at h1
        exact h1
      have hdrop : (p :: (ps ++ c :: b)).drop (p :: ps).length = c :: b := by
        have h1 := List.drop_left (p :: ps) (c :: b)
        rw [List.cons_append] at h1
        exact h1
      rw [if_pos]
      · rw [hdrop]
      · refine ⟨hpre, ?_⟩
        rw [hdrop]
        simp [lineCapture_cons_ne hc]
  | cons x a ih =>
    intro c b hc
    have hs : (x :: a) ++ pat ++ c :: b = x :: (a ++ pat ++ c :: b) := by simp
    rw [hs, firstCapture]
    split_ifs with hcond
    · exact ⟨_, rfl⟩
    · exact ih c b hc

lemma firstCapture_first (pat : List Char) :
    ∀ (a : List Char) (c : Char) (b : List Char), c ≠ '\n' →
    (∀ a2 c2 b2, a ++ pat ++ c :: b = a2 ++ pat ++ c2 :: b2 → c2 ≠ '\n' →
      a.length ≤ a2.length) →
    firstCapture pat (a ++ pat ++ c :: b) = some (lineCapture (c :: b)) := by
  intro a
  induction a with
  | nil =>
    intro c b hc _
    cases pat with
    | nil =>
      have hs : ([] : List Char) ++ ([] : List Char) ++ c :: b = c :: b := by simp
      rw [hs, firstCapture]
      split_ifs with hcond
      · simp
      · exact absurd ⟨by simp [List.isPrefixOf], by simp [lineCapture_cons_ne hc]⟩ hcond
    | cons p ps =>
      have hs : ([] : List Char) ++ (p :: ps) ++ c :: b = p :: (ps ++ c :: b) := by simp
      rw [hs, firstCapture]
      have hpre : (p :: ps).isPrefixOf (p :: (ps ++ c :: b)) = true := by
        have h1 := isPrefixOf_append_self (p :: ps) (c :: b)
        rw [List.cons_append] at h1
        exact h1
      have hdrop : (p :: (ps ++ c :: b)).drop (p :: ps).length = c :: b := by
        have h1 := List.drop_left (p :: ps) (c :: b)
        rw [List.cons_append] at h1
        exact h1
      rw [if_pos]
      · rw [hdrop]
      · refine ⟨hpre, ?_⟩
        rw [hdrop]
        simp [lineCapture_cons_ne hc]
  | cons x a ih =>
    intro c b hc hmin
    have hs : (x :: a) ++ pat ++ c :: b = x :: (a ++ pat ++ c :: b) := by simp
    rw [hs, firstCapture]
    split_ifs with hcond
    · exfalso
      obtain ⟨hpre, hcap⟩ := hcond
      obtain ⟨c0, b0, ht, hc0, _⟩ := exists_of_lineCapture_ne_nil hcap
      have he := append_of_isPrefixOf hpre
      rw [ht] at he
      have hdec : (x :: a) ++ pat ++ c :: b = [] ++ pat ++ c0 :: b0 := by
        rw [hs, he]; simp
      have := hmin [] c0 b0 hdec hc0
      simp at this
    · apply ih c b hc
      intro a2 c2 b2 heq hc2
      have hdec : (x :: a) ++ pat ++ c :: b = (x :: a2) ++ pat ++ c2 :: b2 := by
        rw [hs, heq]; simp
      have := hmin (x :: a2) c2 b2 hdec hc2
      simpa using this

lemma firstCapture_none_of_no_decomp {pat : List Char} {s : List Char}
    (h : ¬ ∃ a c b, s = a ++ pat ++ c :: b ∧ c ≠ '\n') :
    firstCapture pat s = none := by
  cases hfc : firstCapture pat s with
  | none => rfl
  | some d =>
    exfalso
    obtain ⟨a, c, b, heq, hc, _⟩ := firstCapture_some_decomp pat s d hfc
    exact h ⟨a, c, b, heq, hc⟩

/-! ## Claim theorems about the classifier -/

/-- Claim C1: for every raw text containing at least one line with an
`OS details: X` pattern (an occurrence of the literal followed by at least one
non-newline character), `classify` returns `ExactMatch` whose detail is the
captured rest-of-line of the first such occurrence in order of appearance —
regardless of any `Running:` line also present; and for every text with no
`OS details:` match but at least one `Running:` match, `classify` returns
`GuessedMatch` with the first captured `Running:` detail. -/
theorem classify_exact_wins (s : String) :
    (∀ a c b, s.data = a ++ osDetailsPat ++ c :: b → c ≠ '\n' →
      (∀ a2 c2 b2, s.data = a2 ++ osDetailsPat ++ c2 :: b2 → c2 ≠ '\n' →
        a.length ≤ a2.length) →
      classify s = .ExactMatch (String.mk (lineCapture (c :: b)))) ∧
    (firstCapture osDetailsPat s.data = none →
      ∀ a c b, s.data = a ++ runningPat ++ c :: b → c ≠ '\n' →
      (∀ a2 c2 b2, s.data = a2 ++ runningPat ++ c2 :: b2 → c2 ≠ '\n' →
        a.length ≤ a2.length) →
      classify s = .GuessedMatch (String.mk (lineCapture (c :: b)))) := by
  constructor
  · intro a c b hd hc hmin
    have hne : s.data ≠ [] := by rw [hd]; simp
    have hfc : firstCapture osDetailsPat s.data = some (lineCapture (c :: b)) := by
      rw [hd]
      apply firstCapture_first osDetailsPat a c b hc
      intro a2 c2 b2 heq hc2
      exact hmin a2 c2 b2 (hd.trans heq) hc2
    simp [classify, hne, hfc]
  · intro hnone a c b hd hc hmin
    have hne : s.data ≠ [] := by rw [hd]; simp
    have hfc : firstCapture runningPat s.data = some (lineCapture (c :: b)) := by
      rw [hd]
      apply firstCapture_first runningPat a c b hc
      intro a2 c2 b2 heq hc2
      exact hmin a2 c2 b2 (hd.trans heq) hc2
    simp [classify, hne, hnone, hfc]

/-- Witness for C1 at concrete inputs: a text holding both an `OS details:`
line and a `Running:` line classifies as `ExactMatch` of the `OS details:`
rest-of-line, and a text with only a `Running:` line as `GuessedMatch`. -/
theorem classify_exact_wins_witness :
    classify "OS details: Linux 5.0\nRunning: X" = .ExactMatch "Linux 5.0" ∧
    classify "Running: FreeBSD 12" = .GuessedMatch "FreeBSD 12" := by
  constructor
  · have h := (classify_exact_wins "OS details: Linux 5.0\nRunning: X").1
      [] 'L' "inux 5.0\nRunning: X".data (by decide) (by decide)
      (fun a2 c2 b2 _ _ => Nat.zero_le _)
    have e : String.mk (lineCapture ('L' :: "inux 5.0\nRunning: X".data)) = "Linux 5.0" := by
      decide
    rw [e] at h
    exact h
  · have h := (classify_exact_wins "Running: FreeBSD 12").2 (by decide)
      [] 'F' "reeBSD 12".data (by decide) (by decide)
      (fun a2 c2 b2 _ _ => Nat.zero_le _)
    have e : String.mk (lineCapture ('F' :: "reeBSD 12".data)) = "FreeBSD 12" := by
      decide
    rw [e] at h
    exact h

/-- Claim C2: on non-empty text with no `OS details:` and no `Running:` match,
the three substrings are checked in fixed priority order — `No exact OS
matches`, then `Too many fingerprints match`, then `OS detection performed` —
and the first one present decides the classification, later ones being
ignored; when none is present the result is `Unparseable`. -/
theorem classify_substring_priority (s : String) (hne : s.data ≠ [])
    (hos : firstCapture osDetailsPat s.data = none)
    (hrun : firstCapture runningPat s.data = none) :
    (containsSub noExactPat s.data = true → classify s = .NoExactMatch) ∧
    (containsSub noExactPat s.data = false → containsSub tooManyPat s.data = true →
      classify s = .TooManyMatches) ∧
    (containsSub noExactPat s.data = false → containsSub tooManyPat s.data = false →
      containsSub osDetectPat s.data = true → classify s = .InconclusiveDetection) ∧
    (containsSub noExactPat s.data = false → containsSub tooManyPat s.data = false →
      containsSub osDetectPat s.data = false → classify s = .Unparseable) := by
  refine ⟨?_, ?_, ?_, ?_⟩ <;> intros <;> simp [classify, hne, hos, hrun, *]

/-- Witness for C2: a text containing both the `No exact OS matches` and the
`Too many fingerprints match` substrings classifies by the first check in
priority order (`NoExactMatch`), the later present substring being ignored. -/
theorem classify_substring_priority_witness :
    classify "Too many fingerprints match AND No exact OS matches" = .NoExactMatch ∧
    containsSub tooManyPat "Too many fingerprints match AND No exact OS matches".data = true := by
  constructor
  · exact (classify_substring_priority "Too many fingerprints match AND No exact OS matches"
      (by decide) (by decide) (by decide)).1 (by decide)
  · decide

/-- Claim C3: `classify` is a total function (it is a Lean function, so it is
defined and exception-free on every input string): empty input yields `Empty`,
whose rendered detail is the source's "No output received" message; input
matching none of the patterns and substrings yields `Unparseable`, whose
rendered detail is the source's "Could not parse OS fingerprint" message; and
every input is mapped to one of the seven classification kinds. -/
theorem classify_total (s : String) :
    (s.data = [] → classify s = .Empty ∧
      parse_os_fingerprint s = "[danger]No output received[/danger]") ∧
    (s.data ≠ [] → firstCapture osDetailsPat s.data = none →
      firstCapture runningPat s.data = none →
      containsSub noExactPat s.data = false → containsSub tooManyPat s.data = false →
      containsSub osDetectPat s.data = false → classify s = .Unparseable ∧
      parse_os_fingerprint s = "[danger]Could not parse OS fingerprint[/danger]") ∧
    (classify s = .Empty ∨ classify s = .Unparseable ∨ classify s = .NoExactMatch ∨
      classify s = .TooManyMatches ∨ classify s = .InconclusiveDetection ∨
      (∃ d, classify s = .ExactMatch d) ∨ (∃ d, classify s = .GuessedMatch d)) := by
  refine ⟨?_, ?_, ?_⟩
  · intro h
    constructor
    · simp [classify, h]
    · simp [parse_os_fingerprint, classify, h, render]
  · intro h1 h2 h3 h4 h5 h6
    constructor
    · simp [classify, h1, h2, h3, h4, h5, h6]
    · simp [parse_os_fingerprint, classify, h1, h2, h3, h4, h5, h6, render]
  · rcases h : classify s with d | d | _ | _ | _ | _ | _ <;> simp

/-- Witness for C3 at concrete inputs: the empty string and an unmatched
string. -/
theorem classify_total_witness :
    (classify "" = .Empty ∧
      parse_os_fingerprint "" = "[danger]No output received[/danger]") ∧
    (classify "qwerty" = .Unparseable ∧
      parse_os_fingerprint "qwerty" = "[danger]Could not parse OS fingerprint[/danger]") := by
  constructor
  · exact (classify_total "").1 (by decide)
  · exact (classify_total "qwerty").2.1 (by decide) (by decide) (by decide)
      (by decide) (by decide) (by decide)

/-- Counterexample to claim C9 as stated: its `Running:` half says that EVERY
text in which `Running: ` occurs mid-text followed by a non-newline character
classifies as `GuessedMatch`.  In the text "OS details: A\nRunning: B" the
substring `Running: ` does occur, followed by the non-newline `B`, yet
`classify` returns `ExactMatch "A"` (the `OS details:` pattern takes
priority), not a `GuessedMatch`. -/
theorem classify_unanchored_cex :
    "OS details: A\nRunning: B".data =
      "OS details: A\n".data ++ runningPat ++ 'B' :: [] ∧
    ('B' : Char) ≠ '\n' ∧
    classify "OS details: A\nRunning: B" = .ExactMatch "A" ∧
    isGuessedMatch (classify "OS details: A\nRunning: B") = false := by
  refine ⟨by decide, by decide, by decide, by decide⟩

/-- Claim C9 (amended): the classifier's patterns are not anchored to line
starts.  For every text in which `OS details: ` occurs anywhere — even
mid-line — followed by at least one non-newline character, `classify` returns
`ExactMatch`; for every text with NO such `OS details: ` occurrence in which
`Running: ` occurs anywhere followed by at least one non-newline character, it
returns `GuessedMatch`; in both cases the captured detail is non-empty and
never extends past the end of the matched line (it contains no newline). -/
theorem classify_patterns_unanchored (s : String) :
    ((∃ a c b, s.data = a ++ osDetailsPat ++ c :: b ∧ c ≠ '\n') →
      ∃ d, classify s = .ExactMatch d ∧ d.data ≠ [] ∧ ∀ x, x ∈ d.data → x ≠ '\n') ∧
    ((¬ ∃ a c b, s.data = a ++ osDetailsPat ++ c :: b ∧ c ≠ '\n') →
      (∃ a c b, s.data = a ++ runningPat ++ c :: b ∧ c ≠ '\n') →
      ∃ d, classify s = .GuessedMatch d ∧ d.data ≠ [] ∧ ∀ x, x ∈ d.data → x ≠ '\n') := by
  constructor
  · rintro ⟨a, c, b, hd, hc⟩
    have hne : s.data ≠ [] := by rw [hd]; simp
    have hex : ∃ d, firstCapture osDetailsPat s.data = some d := by
      rw [hd]
      exact firstCapture_some_of_decomp osDetailsPat a c b hc
    obtain ⟨d0, hfc⟩ := hex
    obtain ⟨a0, c0, b0, _, hc0, hd0⟩ := firstCapture_some_decomp osDetailsPat s.data d0 hfc
    refine ⟨String.mk d0, ?_, ?_, ?_⟩
    · simp [classify, hne, hfc]
    · rw [hd0, lineCapture_cons_ne hc0]
      simp
    · intro x hx
      rw [hd0] at hx
      exact mem_lineCapture hx
  · intro hno hrun
    obtain ⟨a, c, b, hd, hc⟩ := hrun
    have hne : s.data ≠ [] := by rw [hd]; simp
    have hosnone : firstCapture osDetailsPat s.data = none :=
      firstCapture_none_of_no_decomp hno
    have hex : ∃ d, firstCapture runningPat s.data = some d := by
      rw [hd]
      exact firstCapture_some_of_decomp runningPat a c b hc
    obtain ⟨d0, hfc⟩ := hex
    obtain ⟨a0, c0, b0, _, hc0, hd0⟩ := firstCapture_some_decomp runningPat s.data d0 hfc
    refine ⟨String.mk d0, ?_, ?_, ?_⟩
    · simp [classify, hne, hosnone, hfc]
    · rw [hd0, lineCapture_cons_ne hc0]
      simp
    · intro x hx
      rw [hd0] at hx
      exact mem_lineCapture hx

/-- Witness for the amended C9: an `OS details: ` occurrence that starts
mid-line (after leading junk) still produces an `ExactMatch`. -/
theorem classify_patterns_unanchored_witness :
    ∃ d, classify "junk before OS details: FreeBSD 12" = .ExactMatch d ∧
      d.data ≠ [] ∧ ∀ x, x ∈ d.data → x ≠ '\n' :=
  (classify_patterns_unanchored "junk before OS details: FreeBSD 12").1
    ⟨"junk before ".data, 'F', "reeBSD 12".data, by decide, by decide⟩

/-! ## Target resolver (source lines 99-117)

`socket.gethostbyname` is external: it is modelled as an oracle
`String → Except SocketError String`, where `SocketError.gaierror` is the one
exception class the source's `try/except` catches; any other exception an
oracle might signal is propagated, exactly as the source's `except
socket.gaierror` clause would.  On `gaierror` the source returns `None`,
modelled as `Except.ok none`. -/

inductive SocketError where
  | gaierror
  | otherError (message : String)
deriving DecidableEq

def resolve_host (gethostbyname : String → Except SocketError String)
    (target : String) : Except SocketError (Option String) :=
  match gethostbyname target with
  | .ok ip => .ok (some ip)
  | .error .gaierror => .ok none
  | .error e => .error e

/-- Model of Python's `str.strip()`: whitespace removed from both ends. -/
def pyStrip (s : String) : String :=
  String.mk (((s.data.dropWhile Char.isWhitespace).reverse.dropWhile
    Char.isWhitespace).reverse)

/-- The target-entry loop (source lines 105-117).  The operator's successive
prompt answers are given as a list; the loop ends at the first input that is
blank after stripping (the source would keep prompting, so an exhausted input
list also ends the session).  A resolved address is appended; a failed
resolution is reported and skipped (the source's `if ip:` truthiness test
also skips an empty resolved string). -/
def interactive_target_selection (dns : String → Except SocketError String) :
    List String → Except SocketError (List String)
  | [] => .ok []
  | input :: rest =>
    if (pyStrip input).data = [] then .ok []
    else
      match resolve_host dns (pyStrip input) with
      | .error e => .error e
      | .ok none => interactive_target_selection dns rest
      | .ok (some ip) =>
        if ip.data = [] then interactive_target_selection dns rest
        else (interactive_target_selection dns rest).map (fun ts => ip :: ts)

/-! ## Scan runner (source lines 159-181)

Each child-process invocation either completes with captured stdout, stderr
and an exit status, or raises `subprocess.TimeoutExpired`; the oracle `exec`
gives the outcome of the `i`-th invocation on its target.  The source stores
`proc.stdout + proc.stderr` in `results[target]` on completion (for any exit
status) and `""` on timeout, then continues with the next target. -/

inductive ProcResult where
  | completed (stdout stderr : String) (returncode : Int)
  | timeout
deriving DecidableEq

/-- The string the loop body stores in `results[target]` for one invocation. -/
def recordedOutput : ProcResult → String
  | .completed out err _ => out ++ err
  | .timeout => ""

/-- Python-dict insertion on an association list: an existing key is updated
in place (keeping its position, as dicts preserve first-insertion order), a
new key is appended at the end. -/
def dictInsert : List (String × String) → String → String → List (String × String)
  | [], k, v => [(k, v)]
  | p :: d, k, v => if p.1 = k then (k, v) :: d else p :: dictInsert d k v

def dlookup : List (String × String) → String → Option String
  | [], _ => none
  | p :: d, k => if p.1 = k then some p.2 else dlookup d k

def dictKeys (d : List (String × String)) : List String := d.map Prod.fst

/-- The scan loop: `i` numbers invocations (one per list element, in order);
the first component accumulates the invocation trace, the second the
`results` dict. -/
def run_nmap_scan_aux (exec : Nat → String → ProcResult) :
    Nat → List String → List (Nat × String) → List (String × String) →
    List (Nat × String) × List (String × String)
  | _, [], calls, results => (calls, results)
  | i, target :: rest, calls, results =>
    run_nmap_scan_aux exec (i + 1) rest (calls ++ [(i, target)])
      (dictInsert results target (recordedOutput (exec i target)))

/-- The `results` mapping returned by `run_nmap_scan`. -/
def run_nmap_scan (exec : Nat → String → ProcResult) (targets : List String) :
    List (String × String) :=
  (run_nmap_scan_aux exec 0 targets [] []).2

/-- The child-process invocations `run_nmap_scan` performs, in order. -/
def run_nmap_calls (exec : Nat → String → ProcResult) (targets : List String) :
    List (Nat × String) :=
  (run_nmap_scan_aux exec 0 targets [] []).1

/-- Index (= invocation number) of the last occurrence of `t` in the list. -/
def lastOccIdx : List String → String → Option Nat
  | [], _ => none
  | x :: xs, t =>
    match lastOccIdx xs t with
    | some j => some (j + 1)
    | none => if x = t then some 0 else none

/-- The invocation trace the loop is expected to produce from position `i`. -/
def expectedCalls (i : Nat) : List String → List (Nat × String)
  | [] => []
  | t :: ts => (i, t) :: expectedCalls (i + 1) ts

/-- Distinct elements in order of first occurrence, skipping those in `seen`. -/
def firstDedupAux (seen : List String) : List String → List String
  | [] => []
  | t :: ts => if t ∈ seen then firstDedupAux seen ts
    else t :: firstDedupAux (t :: seen) ts

def firstDedup (ts : List String) : List String := firstDedupAux [] ts

/-! ## Orchestrator (source lines 241-273)

`main` renders one panel per entry of `results.items()`, classifying each
entry's output; with zero gathered targets it prints an error and calls
`sys.exit(1)` before ever invoking the scan runner. -/

/-- The per-entry report `main` renders from the scan results. -/
def mainReport (exec : Nat → String → ProcResult) (targets : List String) :
    List (String × Classification) :=
  (run_nmap_scan exec targets).map (fun p => (p.1, classify p.2))

inductive MainOutcome where
  | raised (e : SocketError)
  | exitedNoTargets (code : Nat) (invocations : List (Nat × String))
  | completed (code : Nat) (invocations : List (Nat × String))
      (report : List (String × Classification))
deriving DecidableEq

/-- The orchestrator: gather targets, exit 1 if none, otherwise scan and
report (exit 0).  Scan-mode selection only chooses the argument string, which
the invocation oracle already absorbs. -/
def mainModel (dns : String → Except SocketError String) (inputs : List String)
    (exec : Nat → String → ProcResult) : MainOutcome :=
  match interactive_target_selection dns inputs with
  | .error e => .raised e
  | .ok targets =>
    if targets = [] then .exitedNoTargets 1 []
    else .completed 0 (run_nmap_calls exec targets) (mainReport exec targets)

/-- An oracle on which every lookup fails with `gaierror`. -/
def gaiFailDns : String → Except SocketError String := fun _ => .error .gaierror

/-- An oracle on which every invocation times out. -/
def timeoutExec : Nat → String → ProcResult := fun _ _ => .timeout

/-- An oracle whose first invocation times out and whose later invocations
complete with a non-zero exit status. -/
def demoExec : Nat → String → ProcResult :=
  fun i _ => if i = 0 then .timeout else .completed "out" "err" 1

/-- An oracle whose invocations complete with outputs distinguished by
invocation number. -/
def dupExec : Nat → String → ProcResult :=
  fun i _ => .completed (if i = 0 then "first" else "second") "" 0

/-- An oracle resolving exactly the name "host-a". -/
def demoDns : String → Except SocketError String :=
  fun s => if s = "host-a" then .ok "10.0.0.1" else .error .gaierror

/-- A target list with one address duplicated. -/
def dupTargets : List String := ["192.0.2.7", "192.0.2.7"]

/-! ## Helper lemmas about the dict and the scan loop -/

lemma dlookup_dictInsert_self : ∀ (d : List (String × String)) (k v : String),
    dlookup (dictInsert d k v) k = some v := by
  intro d
  induction d with
  | nil => intro k v; simp [dictInsert, dlookup]
  | cons p d ih =>
    intro k v
    rw [dictInsert]
    by_cases hp : p.1 = k
    · rw [if_pos hp]
      simp [dlookup]
    · rw [if_neg hp]
      simp [dlookup, hp, ih k v]

lemma dlookup_dictInsert_ne : ∀ (d : List (String × String)) (k v t : String),
    t ≠ k → dlookup (dictInsert d k v) t = dlookup d t := by
  intro d
  induction d with
  | nil => intro k v t h; simp [dictInsert, dlookup, Ne.symm h]
  | cons p d ih =>
    intro k v t h
    rw [dictInsert]
    by_cases hp : p.1 = k
    · rw [if_pos hp]
      simp [dlookup, hp, Ne.symm h]
    · rw [if_neg hp]
      simp [dlookup, ih k v t h]

lemma lastOccIdx_of_mem : ∀ {ts : List String} {t : String}, t ∈ ts →
    ∃ j, lastOccIdx ts t = some j := by
  intro ts
  induction ts with
  | nil => intro t h; simp at h
  | cons x xs ih =>
    intro t h
    cases hm : lastOccIdx xs t with
    | some j =>
      refine ⟨j + 1, ?_⟩
      rw [lastOccIdx, hm]
    | none =>
      have hx : x = t := by
        rcases List.mem_cons.mp h with h1 | h2
        · exact h1.symm
        · obtain ⟨j, hj⟩ := ih h2
          rw [hj] at hm
          cases hm
      refine ⟨0, ?_⟩
      rw [lastOccIdx, hm, if_pos hx]

lemma scan_aux_lookup (exec : Nat → String → ProcResult) :
    ∀ (ts : List String) (i : Nat) (calls : List (Nat × String))
      (d : List (String × String)) (t : String),
    dlookup (run_nmap_scan_aux exec i ts calls d).2 t =
      match lastOccIdx ts t with
      | some j => some (recordedOutput (exec (i + j) t))
      | none => dlookup d t := by
  intro ts
  induction ts with
  | nil => intro i calls d t; rfl
  | cons x xs ih =>
    intro i calls d t
    rw [run_nmap_scan_aux, ih]
    cases hm : lastOccIdx xs t with
    | some j =>
      simp only [lastOccIdx, hm]
      have e : i + 1 + j = i + (j + 1) := by omega
      rw [e]
    | none =>
      simp only [lastOccIdx, hm]
      by_cases hx : x = t
      · rw [if_pos hx]
        subst hx
        rw [dlookup_dictInsert_self]
        simp
      · rw [if_neg hx]
        exact dlookup_dictInsert_ne d x (recordedOutput (exec i x)) t (fun hc => hx hc.symm)

lemma scan_aux_calls (exec : Nat → String → ProcResult) :
    ∀ (ts : List String) (i : Nat) (calls : List (Nat × String))
      (d : List (String × String)),
    (run_nmap_scan_aux exec i ts calls d).1 = calls ++ expectedCalls i ts := by
  intro ts
  induction ts with
  | nil => intro i calls d; simp [run_nmap_scan_aux, expectedCalls]
  | cons x xs ih =>
    intro i calls d
    rw [run_nmap_scan_aux, ih, expectedCalls]
    simp

lemma expectedCalls_length : ∀ (i : Nat) (ts : List String),
    (expectedCalls i ts).length = ts.length := by
  intro i ts
  induction ts generalizing i with
  | nil => rfl
  | cons x xs ih =>
    rw [expectedCalls]
    simp [ih]

lemma expectedCalls_filter_count (t : String) : ∀ (ts : List String) (i : Nat),
    ((expectedCalls i ts).filter (fun p => p.2 = t)).length = ts.count t := by
  intro ts
  induction ts with
  | nil => intro i; simp [expectedCalls]
  | cons x xs ih =>
    intro i
    rw [expectedCalls]
    by_cases hx : x = t
    · subst hx
      simp [List.filter_cons, List.count_cons, ih]
    · simp [List.filter_cons, List.count_cons, hx, ih]

lemma map_fst_dictInsert : ∀ (d : List (String × String)) (k v : String),
    (dictInsert d k v).map Prod.fst =
      if k ∈ d.map Prod.fst then d.map Prod.fst else d.map Prod.fst ++ [k] := by
  intro d
  induction d with
  | nil => intro k v; simp [dictInsert]
  | cons p d ih =>
    intro k v
    rw [dictInsert]
    by_cases hp : p.1 = k
    · rw [if_pos hp]
      have hmem : k ∈ (p :: d).map Prod.fst := by
        rw [List.map_cons, List.mem_cons]
        exact Or.inl hp.symm
      rw [if_pos hmem, List.map_cons, List.map_cons, hp]
    · rw [if_neg hp, List.map_cons, List.map_cons, ih]
      by_cases hk : k ∈ d.map Prod.fst
      · have hmem : k ∈ p.1 :: d.map Prod.fst := by
          rw [List.mem_cons]
          exact Or.inr hk
        rw [if_pos hk, if_pos hmem]
      · have hmem : ¬ k ∈ p.1 :: d.map Prod.fst := by
          rw [List.mem_cons]
          push_neg
          exact ⟨fun h => hp h.symm, hk⟩
        rw [if_neg hk, if_neg hmem]
        simp

lemma nodup_map_fst_dictInsert {d : List (String × String)} (k v : String)
    (h : (d.map Prod.fst).Nodup) : ((dictInsert d k v).map Prod.fst).Nodup := by
  rw [map_fst_dictInsert]
  by_cases hk : k ∈ d.map Prod.fst
  · rw [if_pos hk]
    exact h
  · rw [if_neg hk]
    exact List.Nodup.append h (List.nodup_singleton k)
      (fun a ha hb => hk ((List.mem_singleton.mp hb) ▸ ha))

lemma scan_aux_keys_nodup (exec : Nat → String → ProcResult) :
    ∀ (ts : List String) (i : Nat) (calls : List (Nat × String))
      (d : List (String × String)),
    (d.map Prod.fst).Nodup →
    (((run_nmap_scan_aux exec i ts calls d).2).map Prod.fst).Nodup := by
  intro ts
  induction ts with
  | nil =>
    intro i calls d h
    rw [run_nmap_scan_aux]
    exact h
  | cons x xs ih =>
    intro i calls d h
    rw [run_nmap_scan_aux]
    exact ih _ _ _ (nodup_map_fst_dictInsert x (recordedOutput (exec i x)) h)

lemma firstDedupAux_congr : ∀ (ts : List String) (s1 s2 : List String),
    (∀ x, x ∈ s1 ↔ x ∈ s2) → firstDedupAux s1 ts = firstDedupAux s2 ts := by
  intro ts
  induction ts with
  | nil => intro s1 s2 _; rfl
  | cons t ts ih =>
    intro s1 s2 h
    rw [firstDedupAux, firstDedupAux]
    by_cases ht : t ∈ s1
    · rw [if_pos ht, if_pos ((h t).mp ht)]
      exact ih s1 s2 h
    · rw [if_neg ht, if_neg (fun hc => ht ((h t).mpr hc))]
      have h2 : ∀ x, x ∈ t :: s1 ↔ x ∈ t :: s2 := by
        intro x
        rw [List.mem_cons, List.mem_cons, h x]
      rw [ih (t :: s1) (t :: s2) h2]

lemma scan_aux_keys (exec : Nat → String → ProcResult) :
    ∀ (ts : List String) (i : Nat) (calls : List (Nat × String))
      (d : List (String × String)),
    ((run_nmap_scan_aux exec i ts calls d).2).map Prod.fst =
      d.map Prod.fst ++ firstDedupAux (d.map Prod.fst) ts := by
  intro ts
  induction ts with
  | nil =>
    intro i calls d
    rw [run_nmap_scan_aux, firstDedupAux]
    simp
  | cons x xs ih =>
    intro i calls d
    rw [run_nmap_scan_aux, ih, firstDedupAux]
    by_cases hx : x ∈ d.map Prod.fst
    · rw [if_pos hx, map_fst_dictInsert, if_pos hx]
    · rw [if_neg hx, map_fst_dictInsert, if_neg hx]
      have h2 : ∀ y, y ∈ d.map Prod.fst ++ [x] ↔ y ∈ x :: d.map Prod.fst := by
        intro y
        simp [List.mem_append, List.mem_cons, or_comm]
      rw [firstDedupAux_congr xs (d.map Prod.fst ++ [x]) (x :: d.map Prod.fst) h2]
      simp

lemma firstDedupAux_of_nodup : ∀ (ts seen : List String),
    ts.Nodup → (∀ t, t ∈ ts → t ∉ seen) → firstDedupAux seen ts = ts := by
  intro ts
  induction ts with
  | nil => intro seen _ _; rfl
  | cons t ts ih =>
    intro seen hnd hout
    rw [firstDedupAux, if_neg (hout t (List.mem_cons_self t ts))]
    congr 1
    apply ih
    · exact (List.nodup_cons.mp hnd).2
    · intro u hu hc
      rcases List.mem_cons.mp hc with h1 | h2
      · exact (List.nodup_cons.mp hnd).1 (h1 ▸ hu)
      · exact hout u (List.mem_cons_of_mem t hu) h2

lemma mainReport_map_fst (exec : Nat → String → ProcResult) (ts : List String) :
    (mainReport exec ts).map Prod.fst = (run_nmap_scan exec ts).map Prod.fst := by
  rw [mainReport, List.map_map]
  rfl

/-! ## Claim theorems about resolver, scan runner and orchestrator -/

/-- Counterexample to claim C4 as stated: the claim says a failed resolution
returns a ResolutionFailure carrying the original input, but the source's
`resolve_host` returns the bare `None` on `socket.gaierror` — two distinct
failing inputs yield the identical failure value, which therefore carries no
trace of the original input string. -/
theorem resolve_host_failure_cex :
    resolve_host gaiFailDns "alpha.invalid" = .ok none ∧
    resolve_host gaiFailDns "beta.invalid" = .ok none ∧
    ("alpha.invalid" : String) ≠ "beta.invalid" := by
  refine ⟨rfl, rfl, by decide⟩

/-- Claim C4 (amended): for every input, `resolve_host` either succeeds and
returns the address produced by the lookup, or fails and returns `None` (a
failure value that does not carry the original input); when the underlying
lookup signals failure only via `gaierror` — the one exception class the
source catches — no exception escapes `resolve_host`. -/
theorem resolve_host_total (dns : String → Except SocketError String)
    (target : String) (h : ∀ t e, dns t = .error e → e = .gaierror) :
    (∃ ip, resolve_host dns target = .ok (some ip) ∧ dns target = .ok ip) ∨
    resolve_host dns target = .ok none := by
  cases hd : dns target with
  | ok ip =>
    refine Or.inl ⟨ip, ?_, rfl⟩
    simp [resolve_host, hd]
  | error e =>
    have he := h target e hd
    subst he
    refine Or.inr ?_
    simp [resolve_host, hd]

/-- Witness for the amended C4 on an oracle that always fails with
`gaierror`. -/
theorem resolve_host_total_witness :
    (∃ ip, resolve_host gaiFailDns "host.invalid" = .ok (some ip) ∧
      gaiFailDns "host.invalid" = .ok ip) ∨
    resolve_host gaiFailDns "host.invalid" = .ok none :=
  resolve_host_total gaiFailDns "host.invalid" (by
    intro t e he
    simp [gaiFailDns] at he
    exact he.symm)

/-- Claim C5: the scan runner records an outcome for every target in the list
and never aborts the batch — each target's recorded raw text is decided by
its own (last) invocation regardless of what happened on any other target: a
timed-out invocation is recorded as the empty raw text (the source's
representation of a timed-out outcome), and a completed invocation — whatever
its exit status — is recorded as captured stdout concatenated with captured
stderr. -/
theorem run_nmap_scan_records_all (exec : Nat → String → ProcResult)
    (targets : List String) :
    (∀ t, t ∈ targets → ∃ s, dlookup (run_nmap_scan exec targets) t = some s) ∧
    (∀ t j, lastOccIdx targets t = some j →
      (exec j t = .timeout → dlookup (run_nmap_scan exec targets) t = some "") ∧
      (∀ out err rc, exec j t = .completed out err rc →
        dlookup (run_nmap_scan exec targets) t = some (out ++ err))) := by
  have key : ∀ t j, lastOccIdx targets t = some j →
      dlookup (run_nmap_scan exec targets) t = some (recordedOutput (exec j t)) := by
    intro t j hj
    have h := scan_aux_lookup exec targets 0 [] [] t
    simp only [run_nmap_scan]
    rw [h]
    simp [hj]
  constructor
  · intro t ht
    obtain ⟨j, hj⟩ := lastOccIdx_of_mem ht
    exact ⟨recordedOutput (exec j t), key t j hj⟩
  · intro t j hj
    constructor
    · intro hto
      rw [key t j hj, hto]
      rfl
    · intro out err rc hco
      rw [key t j hj, hco]
      rfl

/-- Witness for C5: the first target times out (recorded as `""`), and the
second target is still scanned and recorded as stdout ++ stderr even though
its exit status is non-zero. -/
theorem run_nmap_scan_records_all_witness :
    dlookup (run_nmap_scan demoExec ["192.0.2.1", "192.0.2.2"]) "192.0.2.1" =
      some "" ∧
    dlookup (run_nmap_scan demoExec ["192.0.2.1", "192.0.2.2"]) "192.0.2.2" =
      some "outerr" := by
  constructor
  · exact ((run_nmap_scan_records_all demoExec ["192.0.2.1", "192.0.2.2"]).2
      "192.0.2.1" 0 (by decide)).1 (by decide)
  · have h := ((run_nmap_scan_records_all demoExec ["192.0.2.1", "192.0.2.2"]).2
      "192.0.2.2" 1 (by decide)).2 "out" "err" 1 (by decide)
    have e : ("out" ++ "err" : String) = "outerr" := by decide
    rw [e] at h
    exact h

/-- Claim C10: the mapping returned by the scan runner is keyed by target
string — for a target list where an address occurs k times, one invocation is
made per occurrence (k in total, and one per list element overall), yet the
mapping holds at most a single entry for the address, whose value is the
recorded output of the last invocation, earlier outputs being discarded. -/
theorem run_nmap_scan_duplicates (exec : Nat → String → ProcResult)
    (targets : List String) (t : String) :
    (run_nmap_calls exec targets).length = targets.length ∧
    ((run_nmap_calls exec targets).filter (fun p => p.2 = t)).length =
      targets.count t ∧
    ((run_nmap_scan exec targets).map Prod.fst).count t ≤ 1 ∧
    (∀ j, lastOccIdx targets t = some j →
      dlookup (run_nmap_scan exec targets) t = some (recordedOutput (exec j t))) := by
  have hcalls : run_nmap_calls exec targets = expectedCalls 0 targets := by
    simp only [run_nmap_calls]
    rw [scan_aux_calls]
    simp
  refine ⟨?_, ?_, ?_, ?_⟩
  · rw [hcalls]
    exact expectedCalls_length 0 targets
  · rw [hcalls]
    exact expectedCalls_filter_count t targets 0
  · have hnd : ((run_nmap_scan exec targets).map Prod.fst).Nodup := by
      simp only [run_nmap_scan]
      exact scan_aux_keys_nodup exec targets 0 [] [] (by simp)
    exact List.nodup_iff_count_le_one.mp hnd t
  · intro j hj
    have h := scan_aux_lookup exec targets 0 [] [] t
    simp only [run_nmap_scan]
    rw [h]
    simp [hj]

/-- Witness for C10: the same address listed twice is invoked twice (two
calls, both on that address) but gets a single mapping entry holding the
second invocation's output. -/
theorem run_nmap_scan_duplicates_witness :
    (run_nmap_calls dupExec ["10.0.0.5", "10.0.0.5"]).length = 2 ∧
    ((run_nmap_calls dupExec ["10.0.0.5", "10.0.0.5"]).filter
      (fun p => p.2 = "10.0.0.5")).length = 2 ∧
    ((run_nmap_scan dupExec ["10.0.0.5", "10.0.0.5"]).map Prod.fst).count
      "10.0.0.5" ≤ 1 ∧
    dlookup (run_nmap_scan dupExec ["10.0.0.5", "10.0.0.5"]) "10.0.0.5" =
      some "second" := by
  have h := run_nmap_scan_duplicates dupExec ["10.0.0.5", "10.0.0.5"] "10.0.0.5"
  refine ⟨h.1, ?_, h.2.2.1, ?_⟩
  · have h2 := h.2.1
    have e : (["10.0.0.5", "10.0.0.5"] : List String).count "10.0.0.5" = 2 := by
      decide
    rw [e] at h2
    exact h2
  · have h4 := h.2.2.2 1 (by decide)
    have e : recordedOutput (dupExec 1 "10.0.0.5") = "second" := by decide
    rw [e] at h4
    exact h4

/-- Counterexample to claim C6 as stated: with the duplicated target list
["192.0.2.7", "192.0.2.7"] (duplicates are permitted by the claim) the
orchestrator renders a single report entry, not one entry per element of the
list. -/
theorem mainReport_duplicate_cex :
    dupTargets.length = 2 ∧
    (mainReport timeoutExec dupTargets).length = 1 ∧
    mainReport timeoutExec dupTargets = [("192.0.2.7", Classification.Empty)] := by
  refine ⟨by decide, by decide, by decide⟩

/-- Claim C6 (amended): the orchestrator renders exactly one report entry per
DISTINCT target of the gathered list, in order of first occurrence; in
particular, for a duplicate-free target list it renders exactly one entry per
target, preserving the input order. -/
theorem mainReport_one_entry_per_distinct (exec : Nat → String → ProcResult)
    (targets : List String) :
    (mainReport exec targets).map Prod.fst = firstDedup targets ∧
    (targets.Nodup → (mainReport exec targets).map Prod.fst = targets) := by
  have h1 : (mainReport exec targets).map Prod.fst = firstDedup targets := by
    rw [mainReport_map_fst]
    simp only [run_nmap_scan]
    rw [scan_aux_keys]
    simp [firstDedup]
  refine ⟨h1, ?_⟩
  intro hnd
  rw [h1, firstDedup]
  exact firstDedupAux_of_nodup targets [] hnd (fun t _ => List.not_mem_nil t)

/-- Witness for the amended C6 on a duplicate-free two-target list. -/
theorem mainReport_one_entry_per_distinct_witness :
    (mainReport timeoutExec ["198.51.100.1", "198.51.100.2"]).map Prod.fst =
      ["198.51.100.1", "198.51.100.2"] :=
  (mainReport_one_entry_per_distinct timeoutExec
    ["198.51.100.1", "198.51.100.2"]).2 (by decide)

/-- Claim C7: when target selection gathers zero targets, the orchestrator
exits with the non-zero status 1 and the scan runner is never invoked (the
outcome records no invocation and no report). -/
theorem mainModel_zero_targets_exits (dns : String → Except SocketError String)
    (inputs : List String) (exec : Nat → String → ProcResult)
    (h : interactive_target_selection dns inputs = .ok []) :
    mainModel dns inputs exec = .exitedNoTargets 1 [] := by
  simp [mainModel, h]

/-- Witness for C7: the operator immediately submits a blank line. -/
theorem mainModel_zero_targets_exits_witness :
    mainModel gaiFailDns [""] timeoutExec = .exitedNoTargets 1 [] :=
  mainModel_zero_targets_exits gaiFailDns [""] timeoutExec (by rfl)

/-- Claim C8: every element of the target list produced by the interactive
selection loop is an address returned by a successful resolution of some
operator-entered (stripped) input — a failed resolution, and hence an
unresolved raw hostname, is never appended.  The theorem quantifies over
every input stream, hence over the working set after every iteration of the
loop. -/
theorem interactive_target_selection_resolved
    (dns : String → Except SocketError String) :
    ∀ (inputs ts : List String),
    interactive_target_selection dns inputs = .ok ts →
    ∀ t, t ∈ ts → ∃ inp, inp ∈ inputs ∧ resolve_host dns (pyStrip inp) = .ok (some t) := by
  intro inputs
  induction inputs with
  | nil =>
    intro ts h t ht
    simp only [interactive_target_selection] at h
    have hts : ([] : List String) = ts := by
      injection h with hh
    subst hts
    simp at ht
  | cons input rest ih =>
    intro ts h t ht
    rw [interactive_target_selection] at h
    by_cases hb : (pyStrip input).data = []
    · rw [if_pos hb] at h
      have hts : ([] : List String) = ts := by
        injection h with hh
      subst hts
      simp at ht
    · rw [if_neg hb] at h
      cases hr : resolve_host dns (pyStrip input) with
      | error e =>
        rw [hr] at h
        exact Except.noConfusion h
      | ok r =>
        rw [hr] at h
        cases r with
        | none =>
          obtain ⟨inp, hin, hres⟩ := ih ts h t ht
          exact ⟨inp, List.mem_cons_of_mem _ hin, hres⟩
        | some ip =>
          have h2 : (if ip.data = [] then interactive_target_selection dns rest
              else Except.map (fun ts => ip :: ts)
                (interactive_target_selection dns rest)) = Except.ok ts := h
          by_cases hip : ip.data = []
          · rw [if_pos hip] at h2
            obtain ⟨inp, hin, hres⟩ := ih ts h2 t ht
            exact ⟨inp, List.mem_cons_of_mem _ hin, hres⟩
          · rw [if_neg hip] at h2
            cases hrec : interactive_target_selection dns rest with
            | error e =>
              rw [hrec] at h2
              simp [Except.map] at h2
            | ok ts0 =>
              rw [hrec] at h2
              simp only [Except.map] at h2
              have hts : ip :: ts0 = ts := by
                injection h2 with hh
              subst hts
              rcases List.mem_cons.mp ht with h1 | h2
              · subst h1
                exact ⟨input, List.mem_cons_self input rest, hr⟩
              · obtain ⟨inp, hin, hres⟩ := ih ts0 hrec t h2
                exact ⟨inp, List.mem_cons_of_mem _ hin, hres⟩

/-- Witness for C8: a session entering a resolvable host, a bad host and a
terminating blank line yields the working set ["10.0.0.1"], whose element
passed resolution. -/
theorem interactive_target_selection_resolved_witness :
    ∃ inp, inp ∈ ["host-a", "bad-host", ""] ∧
      resolve_host demoDns (pyStrip inp) = .ok (some "10.0.0.1") :=
  interactive_target_selection_resolved demoDns ["host-a", "bad-host", ""]
    ["10.0.0.1"] (by rfl) "10.0.0.1" (by decide)

end OSFP
